import Mathlib

/-!
# Verification of the ImageEventEmitter interface contract

This file shallowly embeds the declaration in
`src/ios/versioned-react-native/ABI45_0_0/ReactNative/ReactCommon/react/renderer/components/image/ABI45_0_0ImageEventEmitter.h`
and the event-ordering contract the specification states for it, and proves
the specified properties.

The header is declaration-only: the C++ class declaration is embedded as
explicit declaration data (types, parameter lists, constness, base classes,
fields), and the lifecycle/event-ordering contract — which has no
implementation in the sources — is modelled from the specification as a
small state machine on event traces.
-/

namespace ImageSpec

/-- Model of the C++ types that occur in the header: the methods return
`void` and `onProgress` takes a `double`. -/
inductive CppType
  | void
  | double
  deriving DecidableEq

/-- Model of one C++ method declaration: its name, parameter types, return
type, and whether it is declared `const`. -/
structure MethodDecl where
  mname : String
  params : List CppType
  ret : CppType
  isConst : Bool
  deriving DecidableEq

/-- Model of a C++ class declaration: its name, its public base classes,
whether it inherits the base constructors (a `using Base::Base;`
declaration), the methods it declares itself, and the data members
(fields) it declares itself. -/
structure ClassDecl where
  cname : String
  publicBases : List String
  inheritsConstructors : Bool
  ownMethods : List MethodDecl
  ownFields : List String
  deriving DecidableEq

/-- Translated from `ABI45_0_0ImageEventEmitter.h`, lines 15–25:
`class ImageEventEmitter : public ViewEventEmitter` with
`using ViewEventEmitter::ViewEventEmitter;`, six `const` methods all
returning `void` — `onLoadStart()`, `onLoad()`, `onLoadEnd()`,
`onProgress(double)`, `onError()`, `onPartialLoad()` — and no data
members. -/
def ImageEventEmitter : ClassDecl :=
  ⟨"ImageEventEmitter",
   ["ViewEventEmitter"],
   true,
   [⟨"onLoadStart", [], CppType.void, true⟩,
    ⟨"onLoad", [], CppType.void, true⟩,
    ⟨"onLoadEnd", [], CppType.void, true⟩,
    ⟨"onProgress", [CppType.double], CppType.void, true⟩,
    ⟨"onError", [], CppType.void, true⟩,
    ⟨"onPartialLoad", [], CppType.void, true⟩],
   []⟩

/-- The names of the methods a class declares itself. -/
def declaredMethodNames (c : ClassDecl) : List String :=
  c.ownMethods.map MethodDecl.mname

/-- The six notification-method names the specification enumerates. -/
def imageMethodNames : List String :=
  ["onLoadStart", "onLoad", "onLoadEnd", "onProgress", "onError", "onPartialLoad"]

/-- Model of a C++ run-time value of one of the types above; a `double`
argument is any `Float`, including non-finite ones. -/
inductive CppValue
  | doubleVal (v : Float)

/-- Whether a value is acceptable for a declared parameter type. The
declaration imposes the type and nothing else. -/
def matchesType : CppValue → CppType → Bool
  | CppValue.doubleVal _, CppType.double => true
  | CppValue.doubleVal _, CppType.void => false

/-- Whether the class declaration accepts a call of the named method with
the given argument list: some declared method has that name, the right
number of arguments, and each argument matches the declared parameter
type. -/
def acceptsCall (c : ClassDecl) (m : String) (args : List CppValue) : Bool :=
  c.ownMethods.any fun d =>
    d.mname == m &&
    args.length == d.params.length &&
    (List.zip args d.params).all fun p => matchesType p.1 p.2

/-- The state a class declaration gives to each of its objects: an
assignment of a value to every field the class itself declares. -/
def ObjState (c : ClassDecl) : Type :=
  ∀ f : String, f ∈ c.ownFields → CppValue

/-- ImageEventEmitter declares no fields, so the state its objects own is
degenerate: any two such states are equal, and no call can distinguish or
change it. -/
theorem objState_unique (s t : ObjState ImageEventEmitter) : s = t := by
  funext f h
  exact absurd h (List.not_mem_nil f)

/-- C1 counterexample: the claim says the six notification methods are
inherited from the base view event emitter, i.e. not declared by
`ImageEventEmitter` itself; but the header declares all six inside the
class body (`onLoadStart` in particular is among its own declared
methods). -/
theorem c1_inherited_counterexample :
    ¬ (∀ n ∈ imageMethodNames, n ∉ declaredMethodNames ImageEventEmitter) := by
  intro h
  exact h "onLoadStart" (by decide) (by decide)

/-- C1 (amended): the declared public surface of `ImageEventEmitter`
consists solely of the six notification methods `onLoadStart`, `onLoad`,
`onLoadEnd`, `onProgress`, `onError`, `onPartialLoad`, declared by
`ImageEventEmitter` itself; what it takes from the base view event emitter
is its constructors. -/
theorem c1_declared_surface :
    declaredMethodNames ImageEventEmitter = imageMethodNames ∧
    ImageEventEmitter.publicBases = ["ViewEventEmitter"] ∧
    ImageEventEmitter.inheritsConstructors = true ∧
    ImageEventEmitter.ownFields = [] :=
  ⟨rfl, rfl, rfl, rfl⟩

/-- C2: every one of the six declared operations returns `void`; only
`onProgress` takes an argument, a single `double`; the other five take
none. -/
theorem c2_signatures :
    ImageEventEmitter.ownMethods.map (fun m => (m.mname, m.params, m.ret)) =
      [("onLoadStart", [], CppType.void),
       ("onLoad", [], CppType.void),
       ("onLoadEnd", [], CppType.void),
       ("onProgress", [CppType.double], CppType.void),
       ("onError", [], CppType.void),
       ("onPartialLoad", [], CppType.void)] :=
  rfl

/-- C7: `ImageEventEmitter` declares no fields of its own, so the state
space its objects own is a singleton: no operation on it can read or
modify state stored in the `ImageEventEmitter` type itself. -/
theorem c7_stateless :
    ImageEventEmitter.ownFields = [] ∧
    ∀ s t : ObjState ImageEventEmitter, s = t :=
  ⟨rfl, objState_unique⟩

/-- C8: `ImageEventEmitter` has exactly one public base class, the generic
`ViewEventEmitter`, from which it inherits its constructors
(`using ViewEventEmitter::ViewEventEmitter;`), and it adds exactly six
event-specific methods of its own. -/
theorem c8_single_inheritance :
    ImageEventEmitter.publicBases = ["ViewEventEmitter"] ∧
    ImageEventEmitter.inheritsConstructors = true ∧
    ImageEventEmitter.ownMethods.length = 6 ∧
    declaredMethodNames ImageEventEmitter = imageMethodNames :=
  ⟨rfl, rfl, rfl, rfl⟩

/-- C9: all six declared methods are `const`, and since the class declares
no fields, the state an `ImageEventEmitter` object itself owns is unchanged
by any call. -/
theorem c9_const_methods :
    ImageEventEmitter.ownMethods.map MethodDecl.isConst =
      [true, true, true, true, true, true] ∧
    ∀ s t : ObjState ImageEventEmitter, s = t :=
  ⟨rfl, objState_unique⟩

/-- Modelled from the spec: the six lifecycle events an image load attempt
emits, one per notification method of the header; the `onProgress` payload
("a fractional value") is modelled as a rational number. -/
inductive ImageEvent
  | onLoadStart
  | onLoad
  | onLoadEnd
  | onProgress (v : ℚ)
  | onError
  | onPartialLoad
  deriving DecidableEq

/-- Modelled from the spec: the phase of one load attempt — before
`onLoadStart`, loading (remembering the last reported progress fraction),
after the terminal `onLoad`/`onError`, and after `onLoadEnd`. -/
inductive Phase
  | idle
  | loading (last : ℚ)
  | finished
  | ended
  deriving DecidableEq

/-- Modelled from the spec (§4.1 operation contracts and §8 testable
properties), since the header carries no implementation: the transition
function of one load attempt. `onLoadStart` fires first and only from the
initial phase; while loading, `onProgress` carries a non-decreasing value
in [0, 1] and `onPartialLoad` may fire; `onLoad` or `onError` ends the
loading phase; `onLoadEnd` fires exactly once, after that, and is
terminal. `none` means the event is not allowed in that phase. -/
def step : Phase → ImageEvent → Option Phase
  | Phase.idle, ImageEvent.onLoadStart => some (Phase.loading 0)
  | Phase.loading p, ImageEvent.onProgress v =>
      if p ≤ v ∧ v ≤ 1 then some (Phase.loading v) else none
  | Phase.loading p, ImageEvent.onPartialLoad => some (Phase.loading p)
  | Phase.loading _, ImageEvent.onLoad => some Phase.finished
  | Phase.loading _, ImageEvent.onError => some Phase.finished
  | Phase.finished, ImageEvent.onLoadEnd => some Phase.ended
  | _, _ => none

/-- Run the attempt machine over a trace of events, failing as soon as an
event is not allowed. -/
def run : Phase → List ImageEvent → Option Phase
  | s, [] => some s
  | s, e :: tr =>
      match step s e with
      | some s2 => run s2 tr
      | none => none

/-- A complete, valid load attempt: the machine accepts every event of the
trace starting from the initial phase and finishes in the terminal phase. -/
def ValidAttempt (tr : List ImageEvent) : Prop :=
  run Phase.idle tr = some Phase.ended

instance (tr : List ImageEvent) : Decidable (ValidAttempt tr) :=
  inferInstanceAs (Decidable (run Phase.idle tr = some Phase.ended))

/-- The events a trace may contain while in the loading phase, with the
progress payloads bounded by the last reported value below and by 1
above. -/
def loadingEventsOk : ℚ → List ImageEvent → Prop
  | _, [] => True
  | p, ImageEvent.onProgress v :: tr => p ≤ v ∧ v ≤ 1 ∧ loadingEventsOk v tr
  | p, ImageEvent.onPartialLoad :: tr => loadingEventsOk p tr
  | _, _ :: _ => False

/-- The sequence of progress payloads reported in a trace. -/
def payloads (tr : List ImageEvent) : List ℚ :=
  tr.filterMap fun e =>
    match e with
    | ImageEvent.onProgress v => some v
    | _ => none

/-- From the terminal phase no further event is accepted. -/
theorem run_ended_eq (tr : List ImageEvent)
    (h : run Phase.ended tr = some Phase.ended) : tr = [] := by
  cases tr with
  | nil => rfl
  | cons e tr => cases e <;> simp [run, step] at h

/-- After the terminal `onLoad`/`onError`, the only acceptable remainder is
a single `onLoadEnd`. -/
theorem run_finished_eq (tr : List ImageEvent)
    (h : run Phase.finished tr = some Phase.ended) :
    tr = [ImageEvent.onLoadEnd] := by
  cases tr with
  | nil => simp [run] at h
  | cons e tr =>
    cases e <;> simp [run, step] at h
    rw [run_ended_eq tr h]

/-- Shape of the part of a valid attempt after `onLoadStart`: some
progress/partial events satisfying the payload discipline, then `onLoad`
or `onError`, then `onLoadEnd`. -/
theorem run_loading_shape (tr : List ImageEvent) (p : ℚ)
    (h : run (Phase.loading p) tr = some Phase.ended) :
    ∃ mid e, tr = mid ++ [e, ImageEvent.onLoadEnd] ∧
      (e = ImageEvent.onLoad ∨ e = ImageEvent.onError) ∧
      loadingEventsOk p mid := by
  induction tr generalizing p with
  | nil => simp [run] at h
  | cons ev tr ih =>
    cases ev with
    | onLoadStart => simp [run, step] at h
    | onLoadEnd => simp [run, step] at h
    | onLoad =>
      refine ⟨[], ImageEvent.onLoad, ?_, Or.inl rfl, trivial⟩
      simp [run, step] at h
      rw [run_finished_eq tr h]
      rfl
    | onError =>
      refine ⟨[], ImageEvent.onError, ?_, Or.inr rfl, trivial⟩
      simp [run, step] at h
      rw [run_finished_eq tr h]
      rfl
    | onPartialLoad =>
      simp only [run, step] at h
      obtain ⟨mid, e, htr, he, hok⟩ := ih p h
      exact ⟨ImageEvent.onPartialLoad :: mid, e, by rw [htr]; rfl, he, hok⟩
    | onProgress v =>
      simp only [run, step] at h
      by_cases hc : p ≤ v ∧ v ≤ 1
      · rw [if_pos hc] at h
        obtain ⟨mid, e, htr, he, hok⟩ := ih v h
        exact ⟨ImageEvent.onProgress v :: mid, e, by rw [htr]; rfl, he,
          hc.1, hc.2, hok⟩
      · rw [if_neg hc] at h
        simp at h

/-- Shape of a complete valid attempt: `onLoadStart`, then progress/partial
events satisfying the payload discipline, then `onLoad` or `onError`, then
`onLoadEnd`. -/
theorem validAttempt_shape (tr : List ImageEvent) (h : ValidAttempt tr) :
    ∃ mid e,
      tr = ImageEvent.onLoadStart :: mid ++ [e, ImageEvent.onLoadEnd] ∧
      (e = ImageEvent.onLoad ∨ e = ImageEvent.onError) ∧
      loadingEventsOk 0 mid := by
  cases tr with
  | nil => simp [ValidAttempt, run] at h
  | cons ev tr =>
    cases ev <;> simp only [ValidAttempt, run, step] at h
    case onLoadStart =>
      obtain ⟨mid, e, htr, he, hok⟩ := run_loading_shape tr 0 h
      exact ⟨mid, e, by rw [htr, List.cons_append], he, hok⟩
    all_goals exact Option.noConfusion h

/-- Every event of the middle part of a valid attempt is a progress or a
partial-load event. -/
theorem loadingEventsOk_mem (mid : List ImageEvent) (p : ℚ)
    (h : loadingEventsOk p mid) :
    ∀ x ∈ mid, (∃ v, x = ImageEvent.onProgress v) ∨ x = ImageEvent.onPartialLoad := by
  induction mid generalizing p with
  | nil => intro x hx; exact absurd hx (List.not_mem_nil x)
  | cons ev mid ih =>
    intro x hx
    cases ev with
    | onProgress v =>
      rcases List.mem_cons.mp hx with hx | hx
      · exact Or.inl ⟨v, hx⟩
      · exact ih v h.2.2 x hx
    | onPartialLoad =>
      rcases List.mem_cons.mp hx with hx | hx
      · exact Or.inr hx
      · exact ih p h x hx
    | onLoadStart => exact absurd h not_false
    | onLoad => exact absurd h not_false
    | onLoadEnd => exact absurd h not_false
    | onError => exact absurd h not_false

/-- Every progress payload reported in the middle part is at least the
progress value already reported and at most 1. -/
theorem loadingEventsOk_bounds (mid : List ImageEvent) (p : ℚ)
    (h : loadingEventsOk p mid) :
    ∀ v ∈ payloads mid, p ≤ v ∧ v ≤ 1 := by
  induction mid generalizing p with
  | nil => intro v hv; simp [payloads] at hv
  | cons ev mid ih =>
    intro v hv
    cases ev with
    | onProgress w =>
      obtain ⟨h1, h2, h3⟩ := h
      simp only [payloads, List.filterMap_cons] at hv
      rcases List.mem_cons.mp hv with rfl | hv
      · exact ⟨h1, h2⟩
      · obtain ⟨hw, hb⟩ := ih w h3 v hv
        exact ⟨le_trans h1 hw, hb⟩
    | onPartialLoad =>
      simp only [payloads, List.filterMap_cons] at hv
      exact ih p h v hv
    | onLoadStart => exact absurd h not_false
    | onLoad => exact absurd h not_false
    | onLoadEnd => exact absurd h not_false
    | onError => exact absurd h not_false

/-- Successive progress payloads reported in the middle part are
non-decreasing. -/
theorem loadingEventsOk_chain (mid : List ImageEvent) (p : ℚ)
    (h : loadingEventsOk p mid) :
    List.Chain' (· ≤ ·) (payloads mid) := by
  induction mid generalizing p with
  | nil => simp [payloads]
  | cons ev mid ih =>
    cases ev with
    | onProgress w =>
      obtain ⟨h1, h2, h3⟩ := h
      simp only [payloads, List.filterMap_cons]
      refine List.chain'_cons'.mpr ⟨?_, ih w h3⟩
      intro y hy
      exact (loadingEventsOk_bounds mid w h3 y (List.mem_of_mem_head? hy)).1
    | onPartialLoad =>
      simp only [payloads, List.filterMap_cons]
      exact ih p h
    | onLoadStart => exact absurd h not_false
    | onLoad => exact absurd h not_false
    | onLoadEnd => exact absurd h not_false
    | onError => exact absurd h not_false

/-- C3: in every valid load attempt, `onLoadStart` is the first event —
it precedes every `onProgress`, `onLoad`, `onError`, `onPartialLoad` and
`onLoadEnd` — and it fires exactly once (hence at most once). -/
theorem c3_onLoadStart_first (tr : List ImageEvent) (h : ValidAttempt tr) :
    (∃ rest, tr = ImageEvent.onLoadStart :: rest) ∧
    List.count ImageEvent.onLoadStart tr = 1 := by
  obtain ⟨mid, e, htr, he, hok⟩ := validAttempt_shape tr h
  subst htr
  refine ⟨⟨_, rfl⟩, ?_⟩
  have hmem : ImageEvent.onLoadStart ∉ mid := by
    intro hm
    rcases loadingEventsOk_mem mid 0 hok _ hm with ⟨v, hv⟩ | hv <;> simp at hv
  rcases he with rfl | rfl <;>
    simp [List.count_cons, List.count_append, List.count_eq_zero.mpr hmem]

/-- C4: in every valid load attempt, `onLoadEnd` fires exactly once, and
that occurrence comes right after the `onLoad` or `onError` of the
attempt. -/
theorem c4_onLoadEnd_once (tr : List ImageEvent) (h : ValidAttempt tr) :
    List.count ImageEvent.onLoadEnd tr = 1 ∧
    ∃ pre e, tr = pre ++ [e, ImageEvent.onLoadEnd] ∧
      (e = ImageEvent.onLoad ∨ e = ImageEvent.onError) := by
  obtain ⟨mid, e, htr, he, hok⟩ := validAttempt_shape tr h
  subst htr
  have hmem : ImageEvent.onLoadEnd ∉ mid := by
    intro hm
    rcases loadingEventsOk_mem mid 0 hok _ hm with ⟨v, hv⟩ | hv <;> simp at hv
  constructor
  · rcases he with rfl | rfl <;>
      simp [List.count_cons, List.count_append, List.count_eq_zero.mpr hmem]
  · exact ⟨ImageEvent.onLoadStart :: mid, e, by rw [List.cons_append], he⟩

/-- C5: within a single valid load attempt, `onLoad` and `onError` are
mutually exclusive: no accepted trace contains both. -/
theorem c5_mutual_exclusion (tr : List ImageEvent) (h : ValidAttempt tr) :
    ¬ (ImageEvent.onLoad ∈ tr ∧ ImageEvent.onError ∈ tr) := by
  obtain ⟨mid, e, htr, he, hok⟩ := validAttempt_shape tr h
  subst htr
  rintro ⟨hl, hr⟩
  have hml : ImageEvent.onLoad ∉ mid := by
    intro hm
    rcases loadingEventsOk_mem mid 0 hok _ hm with ⟨v, hv⟩ | hv <;> simp at hv
  have hme : ImageEvent.onError ∉ mid := by
    intro hm
    rcases loadingEventsOk_mem mid 0 hok _ hm with ⟨v, hv⟩ | hv <;> simp at hv
  rcases he with rfl | rfl
  · simp [List.mem_cons, List.mem_append] at hr
    exact hme hr
  · simp [List.mem_cons, List.mem_append] at hl
    exact hml hl

/-- C6: in every valid load attempt, every `onProgress` payload lies in
[0, 1], and the sequence of payloads is non-decreasing across the
attempt. -/
theorem c6_progress_monotone (tr : List ImageEvent) (h : ValidAttempt tr) :
    (∀ v ∈ payloads tr, 0 ≤ v ∧ v ≤ 1) ∧
    List.Chain' (· ≤ ·) (payloads tr) := by
  obtain ⟨mid, e, htr, he, hok⟩ := validAttempt_shape tr h
  subst htr
  have hpay :
      payloads (ImageEvent.onLoadStart :: mid ++ [e, ImageEvent.onLoadEnd]) =
        payloads mid := by
    rcases he with rfl | rfl <;>
      simp [payloads, List.filterMap_cons, List.filterMap_append]
  rw [hpay]
  exact ⟨loadingEventsOk_bounds mid 0 hok, loadingEventsOk_chain mid 0 hok⟩

/-- A valid successful attempt used as a concrete witness: start, progress
0, a partial render, progress 1, load, loadEnd. -/
def sampleSuccess : List ImageEvent :=
  [ImageEvent.onLoadStart, ImageEvent.onProgress 0, ImageEvent.onPartialLoad,
   ImageEvent.onProgress 1, ImageEvent.onLoad, ImageEvent.onLoadEnd]

/-- A valid failing attempt used as a concrete witness: start, error,
loadEnd. -/
def sampleFailure : List ImageEvent :=
  [ImageEvent.onLoadStart, ImageEvent.onError, ImageEvent.onLoadEnd]

/-- C3 at a concrete valid trace. -/
theorem c3_witness :
    (∃ rest, sampleSuccess = ImageEvent.onLoadStart :: rest) ∧
    List.count ImageEvent.onLoadStart sampleSuccess = 1 :=
  c3_onLoadStart_first sampleSuccess (by decide)

/-- C4 at a concrete valid trace. -/
theorem c4_witness :
    List.count ImageEvent.onLoadEnd sampleFailure = 1 ∧
    ∃ pre e, sampleFailure = pre ++ [e, ImageEvent.onLoadEnd] ∧
      (e = ImageEvent.onLoad ∨ e = ImageEvent.onError) :=
  c4_onLoadEnd_once sampleFailure (by decide)

/-- C5 at a concrete valid trace. -/
theorem c5_witness :
    ¬ (ImageEvent.onLoad ∈ sampleFailure ∧ ImageEvent.onError ∈ sampleFailure) :=
  c5_mutual_exclusion sampleFailure (by decide)

/-- C6 at a concrete valid trace. -/
theorem c6_witness :
    (∀ v ∈ payloads sampleSuccess, 0 ≤ v ∧ v ≤ 1) ∧
    List.Chain' (· ≤ ·) (payloads sampleSuccess) :=
  c6_progress_monotone sampleSuccess (by decide)

/-- C10: the declared parameter type of `onProgress` is `double` with no
range restriction: every `Float` argument — below 0.0, above 1.0, or
non-finite — is accepted by the declared interface; the [0.0, 1.0]
expectation is not enforced at the declaration level. -/
theorem c10_onProgress_unrestricted :
    ∀ v : Float,
      acceptsCall ImageEventEmitter "onProgress" [CppValue.doubleVal v] = true :=
  fun _ => rfl

end ImageSpec
